import Mathlib

/-!
Shallow embedding of the changelog-generator core of this repository
(`actions/devops/changelog-conventional-commit/src/cli.py`): the
squash-body segmenter (the body loop of `get_commit_squash`,
lines 89-114), the conventional-commit grouper (`group_commits`,
lines 119-156) and the pure parsing part of `get_commits_pr`
(lines 48-72).

Strings are modelled as `List Char`.  The Python text predicates
(regex `\w`, regex `\s`, `str.lower`, `str.strip`, `str.splitlines`)
are modelled over ASCII; the Python originals additionally accept
some non-ASCII code points, which no claim exercises.
-/

/-- ASCII model of Python `str.strip` / regex `\s` whitespace. -/
def isPySpace (c : Char) : Bool :=
  c == ' ' || c == '\t' || c == '\n' || c == '\r' || c == '\x0b' || c == '\x0c'

/-- ASCII model of regex `\w` (word character). -/
def isWordChar (c : Char) : Bool :=
  c.isAlphanum || c == '_'

/-- ASCII model of Python `str.lower`, character by character. -/
def pyLower (c : Char) : Char :=
  if 65 ≤ c.toNat ∧ c.toNat ≤ 90 then Char.ofNat (c.toNat + 32) else c

/-- Python `str.strip()`: remove leading and trailing whitespace. -/
def pyStrip (l : List Char) : List Char :=
  ((l.dropWhile isPySpace).reverse.dropWhile isPySpace).reverse

/-- Collapse `\r\n` to `\n`, so that line splitting can treat every
single `\n` or `\r` as one break: models the `\r\n` case of Python
`str.splitlines`. -/
def normNL : List Char → List Char
  | '\r' :: '\n' :: rest => '\n' :: normNL rest
  | c :: rest => c :: normNL rest
  | [] => []

/-- Split at `\n` / `\r` breaks; a trailing break contributes no empty
final line, matching Python `str.splitlines`. -/
def splitlinesAux : List Char → List Char → List (List Char)
  | [], acc => if acc.isEmpty then [] else [acc.reverse]
  | c :: rest, acc =>
    if c == '\n' || c == '\r' then acc.reverse :: splitlinesAux rest []
    else splitlinesAux rest (c :: acc)

/-- Python `str.splitlines` (ASCII line breaks `\n`, `\r`, `\r\n`). -/
def pySplitlines (l : List Char) : List (List Char) :=
  splitlinesAux (normNL l) []

/-- The four characters of the `"wip:"` marker. -/
def wipChars : List Char := ['w', 'i', 'p', ':']

/-- Python `line.lower().startswith("wip:")`. -/
def isWipLine (l : List Char) : Bool :=
  wipChars.isPrefixOf (l.map pyLower)

/-- Python `re.sub(r"^[*]+\s*", "", line)`: when the line begins with
an asterisk, drop all leading asterisks and the whitespace after them;
otherwise the line is unchanged. -/
def stripLeadingStars (l : List Char) : List Char :=
  if l.head? == some '*' then (l.dropWhile (fun c => c == '*')).dropWhile isPySpace
  else l

/-- Python `re.sub(r"^-\s*", "", line)`: when the line begins with a
dash, drop that dash and the whitespace after it. -/
def dropDashWs (l : List Char) : List Char :=
  match l with
  | '-' :: r => r.dropWhile isPySpace
  | _ => l

/-- Models `re.match(r"^\w+(\([^)]*\))?:", line)` as a Bool: one or
more word characters, an optional parenthesised run of non-`)`
characters (possibly empty), then a colon.  Backtracking cannot help
this pattern (word characters exclude `(` and `:`, and the scope run
must stop at the first `)`), so a single first-match scan is exact. -/
def markerMatch (l : List Char) : Bool :=
  let ty := l.takeWhile isWordChar
  let rest := l.dropWhile isWordChar
  if ty.isEmpty then false
  else
    match rest with
    | ':' :: _ => true
    | '(' :: r =>
      match r.dropWhile (fun c => c != ')') with
      | ')' :: ':' :: _ => true
      | _ => false
    | _ => false

/-- One commit record: the Python dicts built by `get_commit_squash`
(`subject`/`body` only) and by `get_commits_pr` (which also carries
`sha`/`sha_full`). -/
structure Commit where
  subject : List Char
  body : List Char
  sha : Option (List Char) := none
  shaFull : Option (List Char) := none
  deriving DecidableEq, Repr

/-- The body-extension idiom of `get_commit_squash` (lines 104-107 and
109-112): start the body, or join with a newline when it is already
non-empty. -/
def appendBody (b d : List Char) : List Char :=
  if b.isEmpty then d else b ++ '\n' :: d

/-- The new-record guard of `get_commit_squash`, line 95:
`line.startswith("*") or re.match(r"^\w+(\([^)]*\))?:", line)`. -/
def isMarkerLine (l : List Char) : Bool :=
  l.head? == some '*' || markerMatch l

/-- One iteration of the scanning loop of `get_commit_squash`
(lines 92-112), acting on the state `(commits, current)`. -/
def segStep (st : List Commit × Option Commit) (rawLine : List Char) :
    List Commit × Option Commit :=
  let line := pyStrip rawLine
  if line.isEmpty || isWipLine line then st
  else if isMarkerLine line then
    (st.1 ++ st.2.toList, some { subject := stripLeadingStars line, body := [] })
  else if line.head? == some '-' && st.2.isSome then
    match st.2 with
    | some cur => (st.1, some { cur with body := appendBody cur.body (dropDashWs line) })
    | none => st
  else
    match st.2 with
    | some cur => (st.1, some { cur with body := appendBody cur.body line })
    | none => st

/-- The loop of `get_commit_squash` over all body lines, starting from
the empty commit list and no current record. -/
def segmentLines (ls : List (List Char)) : List Commit × Option Commit :=
  ls.foldl segStep ([], none)

/-- The segmenter: the body-splitting part of `get_commit_squash`
(lines 89-114): scan the lines, then flush the final record. -/
def segmentBody (body : List Char) : List Commit :=
  let st := segmentLines (pySplitlines body)
  st.1 ++ st.2.toList

/-- The description the regex engine captures for `(.+)$` after `\s*`
has consumed greedily and given back just enough: the part of `after`
past its leading whitespace or, when `after` is whitespace only, its
final character alone. -/
def descOf (after : List Char) : List Char :=
  let d := after.dropWhile isPySpace
  if d.isEmpty then (after.reverse.take 1).reverse else d

/-- Models matching `\s*(?P<desc>.+)$` against the remainder `r` after
the colon, under Python semantics: `.` does not match `\n`, and `$`
matches at the end of the string or just before one final `\n`.  So a
match exists exactly when, after removing one trailing `\n` (if any),
everything up to and including the last `\n` is whitespace and a
non-empty `\n`-free tail remains; the captured description is that
tail minus the whitespace `\s*` keeps. -/
def descMatch (r : List Char) : Option (List Char) :=
  let q := if r.getLast? == some '\n' then r.dropLast else r
  let after := (q.reverse.takeWhile (fun c => c != '\n')).reverse
  let before := q.take (q.length - after.length)
  if after.isEmpty then none
  else if before.all isPySpace then some (descOf after) else none

/-- Models `re.match` of the `group_commits` pattern
`^(?P<type>\w+)(\((?P<scope>[^)]+)\))?:\s*(?P<desc>.+)$` (line 131):
on success, the captured type, optional scope and description.  As for
`markerMatch`, a first-match scan is exact, except that the scope run
must here be non-empty. -/
def groupMatch (s : List Char) :
    Option (List Char × Option (List Char) × List Char) :=
  let ty := s.takeWhile isWordChar
  let rest := s.dropWhile isWordChar
  if ty.isEmpty then none
  else
    match rest with
    | ':' :: r => (descMatch r).map (fun d => (ty, none, d))
    | '(' :: r =>
      let sc := r.takeWhile (fun c => c != ')')
      if sc.isEmpty then none
      else
        match r.dropWhile (fun c => c != ')') with
        | ')' :: ':' :: r2 => (descMatch r2).map (fun d => (ty, some sc, d))
        | _ => none
    | _ => none

/-- The literal sentinel `"(no scope)"`. -/
def noScope : List Char := ['(', 'n', 'o', ' ', 's', 'c', 'o', 'p', 'e', ')']

/-- The literal fallback type `"other"`. -/
def otherType : List Char := ['o', 't', 'h', 'e', 'r']

/-- Lines 137-145 of `group_commits`: the per-record classification.
On a match, the type, the scope (the capture is never empty, so
Python's `match.group("scope") or "(no scope)"` is `getD`) and the
stripped description; otherwise `other` / `(no scope)` / the stripped
subject. -/
def classify (subject : List Char) : List Char × List Char × List Char :=
  match groupMatch subject with
  | some (ty, scOpt, d) => (ty, scOpt.getD noScope, pyStrip d)
  | none => (otherType, noScope, pyStrip subject)

/-- One grouped entry: the dict built at lines 147-155 of
`group_commits`. -/
structure Entry where
  title : List Char
  scope : List Char
  body : List Char
  sha : Option (List Char)
  shaFull : Option (List Char)
  deriving DecidableEq, Repr

/-- The nested `type -> scope -> entries` structure of `group_commits`,
as an insertion-ordered association list (Python dicts preserve
insertion order). -/
abbrev Grouping := List (List Char × List (List Char × List Entry))

/-- Update the value at key `k` in an insertion-ordered association
list, as a Python `defaultdict` does: an existing key keeps its
position, a missing key is appended at the end with default `d`. -/
def updateAssoc {β : Type} (l : List (List Char × β)) (k : List Char)
    (f : β → β) (d : β) : List (List Char × β) :=
  match l with
  | [] => [(k, f d)]
  | (k', v) :: t => if k' = k then (k', f v) :: t else (k', v) :: updateAssoc t k f d

/-- Key lookup in an association list. -/
def findAssoc {β : Type} (l : List (List Char × β)) (k : List Char) : Option β :=
  match l with
  | [] => none
  | (k', v) :: t => if k' = k then some v else findAssoc t k

/-- `grouped[commit_type][scope].append(entry)` on the
`defaultdict(lambda: defaultdict(list))` of `group_commits`. -/
def appendEntry (g : Grouping) (ty sc : List Char) (e : Entry) : Grouping :=
  updateAssoc g ty (fun m => updateAssoc m sc (fun es => es ++ [e]) []) []

/-- The loop body of `group_commits` (lines 133-155) for one commit. -/
def groupStep (g : Grouping) (c : Commit) : Grouping :=
  let (ty, sc, d) := classify c.subject
  appendEntry g ty sc
    { title := d, scope := sc, body := c.body, sha := c.sha, shaFull := c.shaFull }

/-- `group_commits` (lines 119-156). -/
def groupCommits (cs : List Commit) : Grouping :=
  cs.foldl groupStep []

/-- The entry sequence of one `(type, scope)` bucket (empty when the
bucket does not exist). -/
def bucketOf (g : Grouping) (ty sc : List Char) : List Entry :=
  (findAssoc ((findAssoc g ty).getD []) sc).getD []

/-- Total number of entries across all buckets. -/
def totalEntries (g : Grouping) : Nat :=
  (g.map (fun tm => (tm.2.map (fun se => se.2.length)).sum)).sum

/-- The bucket shape of a grouping: its type keys in order, each with
its scope keys in order and the entry count of each bucket. -/
def shapeOf (g : Grouping) : List (List Char × List (List Char × Nat)) :=
  g.map (fun tm => (tm.1, tm.2.map (fun se => (se.1, se.2.length))))

/-- Python `raw.split("---END---")` of `get_commits_pr`, line 49. -/
def splitEndAux : List Char → List Char → List (List Char)
  | '-' :: '-' :: '-' :: 'E' :: 'N' :: 'D' :: '-' :: '-' :: '-' :: rest, acc =>
    acc.reverse :: splitEndAux rest []
  | c :: rest, acc => splitEndAux rest (c :: acc)
  | [], acc => [acc.reverse]

/-- Python `chunk.split("|", 3)` of `get_commits_pr`, line 54: split at
`|` at most `n` times. -/
def splitPipeAux : Nat → List Char → List Char → List (List Char)
  | 0, l, acc => [acc.reverse ++ l]
  | _ + 1, [], acc => [acc.reverse]
  | n + 1, c :: rest, acc =>
    if c == '|' then acc.reverse :: splitPipeAux n rest []
    else splitPipeAux (n + 1) rest (c :: acc)

/-- The per-chunk parsing of `get_commits_pr` (lines 50-71): strip the
chunk, skip it when empty, split into at most four `|`-separated
fields, skip short chunks, strip the subject, skip `wip:` subjects,
and strip the body. -/
def parseChunk (chunk : List Char) : Option Commit :=
  let c := pyStrip chunk
  if c.isEmpty then none
  else
    match splitPipeAux 3 c [] with
    | [short, full, subject, body] =>
      let subj := pyStrip subject
      if isWipLine subj then none
      else some { subject := subj, body := pyStrip body,
                  sha := some short, shaFull := some full }
    | _ => none

/-- The pure parsing part of `get_commits_pr` (lines 48-72), applied to
the text the `git log` subprocess returned. -/
def parseCommitsPr (raw : List Char) : List Commit :=
  (splitEndAux raw []).filterMap parseChunk

/-- The pair `(commit_type, scope)` that `group_commits` computes for a
subject. -/
def tyScopeOf (s : List Char) : List Char × List Char :=
  ((classify s).1, (classify s).2.1)

/-- The grouped entry `group_commits` builds for a commit. -/
def entryOf (c : Commit) : Entry :=
  { title := (classify c.subject).2.2, scope := (classify c.subject).2.1,
    body := c.body, sha := c.sha, shaFull := c.shaFull }

/-- `"feat"`. -/
def featChars : List Char := ['f', 'e', 'a', 't']

/-- `"fix"`. -/
def fixChars : List Char := ['f', 'i', 'x']

/-- Sum of entry counts of an inner scope map. -/
def innerCount (m : List (List Char × List Entry)) : Nat :=
  (m.map (fun se => se.2.length)).sum

/-- The record count of a segmenter state. -/
def segCount (st : List Commit × Option Commit) : Nat :=
  st.1.length + st.2.toList.length

/-- The stripped-line guard that makes the segmenter start a new
record: non-blank, not `wip:`, and a marker line. -/
def keepMarker (l : List Char) : Bool :=
  !(l.isEmpty || isWipLine l) && isMarkerLine l

/-- The stripped marker lines of a body, in order: exactly the lines
for which the segmenter starts a new record. -/
def markerLines (body : List Char) : List (List Char) :=
  ((pySplitlines body).map pyStrip).filter keepMarker

/-- The segmenter new-record header grammar as claim C2 words it:
`type(scope): description` or `type: description`, with `type` one or
more word characters, `scope` any characters except `)`, and a
colon-space separating the header from the description. -/
def specC2Header (l : List Char) : Bool :=
  let ty := l.takeWhile isWordChar
  let rest := l.dropWhile isWordChar
  if ty.isEmpty then false
  else
    match rest with
    | ':' :: ' ' :: _ => true
    | '(' :: r =>
      match r.dropWhile (fun c => c != ')') with
      | ')' :: ':' :: ' ' :: _ => true
      | _ => false
    | _ => false

/-- The effect of one appended entry on the bucket shape. -/
def bumpShape (sh : List (List Char × List (List Char × Nat))) (t s : List Char) :
    List (List Char × List (List Char × Nat)) :=
  updateAssoc sh t (fun m => updateAssoc m s (fun n => n + 1) 0) []

/-- One shape step per classified `(type, scope)` pair. -/
def shapePairsStep (sh : List (List Char × List (List Char × Nat)))
    (p : List Char × List Char) : List (List Char × List (List Char × Nat)) :=
  bumpShape sh p.1 p.2

/-- The grouper classification as claim C1 words it: header grammar
`^(type)(\(scope\))?:\s*(description)$` with `type` one or more word
characters, `scope` one or more characters excluding `)` and
`description` the remainder of the line, required to be non-empty
after trimming; on match the title is the trimmed description, on no
match the record goes to `other` / `(no scope)` with the trimmed
subject as title. -/
def specClassifyC1 (subject : List Char) : List Char × List Char × List Char :=
  let ty := subject.takeWhile isWordChar
  let rest := subject.dropWhile isWordChar
  if ty.isEmpty then (otherType, noScope, pyStrip subject)
  else
    match rest with
    | ':' :: r =>
      if (pyStrip r).isEmpty then (otherType, noScope, pyStrip subject)
      else (ty, noScope, pyStrip r)
    | '(' :: r =>
      let sc := r.takeWhile (fun c => c != ')')
      if sc.isEmpty then (otherType, noScope, pyStrip subject)
      else
        match r.dropWhile (fun c => c != ')') with
        | ')' :: ':' :: r2 =>
          if (pyStrip r2).isEmpty then (otherType, noScope, pyStrip subject)
          else (ty, sc, pyStrip r2)
        | _ => (otherType, noScope, pyStrip subject)
    | _ => (otherType, noScope, pyStrip subject)

/-- The header grammar as claim C1 reads after amendment: type of one
or more word characters, optional parenthesised scope of one or more
non-`)` characters, a colon, and a description that need only be
non-empty as a string (at least one character) — it may be all
whitespace.  On success: the type, the optional scope and the raw
remainder after the colon. -/
def specHeaderAmended (s : List Char) :
    Option (List Char × Option (List Char) × List Char) :=
  let ty := s.takeWhile isWordChar
  let rest := s.dropWhile isWordChar
  if ty.isEmpty then none
  else
    match rest with
    | ':' :: r => if r.isEmpty then none else some (ty, none, r)
    | '(' :: r =>
      let sc := r.takeWhile (fun c => c != ')')
      if sc.isEmpty then none
      else
        match r.dropWhile (fun c => c != ')') with
        | ')' :: ':' :: r2 => if r2.isEmpty then none else some (ty, some sc, r2)
        | _ => none
    | _ => none

/-- The grouper classification as claim C1 reads after amendment: on a
grammar match the title is the trimmed remainder (possibly empty);
otherwise `other` / `(no scope)` / trimmed subject. -/
def specClassifyAmended (subject : List Char) : List Char × List Char × List Char :=
  match specHeaderAmended subject with
  | some (ty, scOpt, r) => (ty, scOpt.getD noScope, pyStrip r)
  | none => (otherType, noScope, pyStrip subject)

/-- The grouper loop built on the amended spec classification. -/
def specGroupStepAmended (g : Grouping) (c : Commit) : Grouping :=
  let (ty, sc, d) := specClassifyAmended c.subject
  appendEntry g ty sc
    { title := d, scope := sc, body := c.body, sha := c.sha, shaFull := c.shaFull }

/-- The grouper as the amended spec describes it. -/
def groupCommitsSpecAmended (cs : List Commit) : Grouping :=
  cs.foldl specGroupStepAmended []

section GroupingLemmas

theorem findAssoc_updateAssoc {β : Type} (l : List (List Char × β)) (k k2 : List Char)
    (f : β → β) (d : β) :
    findAssoc (updateAssoc l k f d) k2 =
      if k2 = k then some (f ((findAssoc l k).getD d)) else findAssoc l k2 := by
  induction l with
  | nil =>
    by_cases h : k2 = k
    · subst h; simp [updateAssoc, findAssoc]
    · simp [updateAssoc, findAssoc, h, Ne.symm h]
  | cons hd t ih =>
    obtain ⟨a, v⟩ := hd
    by_cases hak : a = k
    · subst hak
      by_cases h2 : k2 = a <;> simp [updateAssoc, findAssoc, h2, eq_comm]
    · by_cases h2 : a = k2
      · subst h2
        have hk : ¬a = k := hak
        simp [updateAssoc, findAssoc, hak, hk, Ne.symm hak]
      · simp [updateAssoc, findAssoc, hak, h2, ih]

theorem bucketOf_appendEntry (g : Grouping) (t s ty sc : List Char) (e : Entry) :
    bucketOf (appendEntry g t s e) ty sc =
      bucketOf g ty sc ++ (if ty = t ∧ sc = s then [e] else []) := by
  unfold bucketOf appendEntry
  by_cases h1 : ty = t
  · subst h1
    by_cases h2 : sc = s
    · subst h2
      simp [findAssoc_updateAssoc]
    · simp [findAssoc_updateAssoc, h2]
  · simp [findAssoc_updateAssoc, h1]

theorem groupStep_eq (g : Grouping) (c : Commit) :
    groupStep g c = appendEntry g (tyScopeOf c.subject).1 (tyScopeOf c.subject).2 (entryOf c) := rfl

theorem bucketOf_foldl (cs : List Commit) (ty sc : List Char) :
    ∀ g : Grouping,
      bucketOf (cs.foldl groupStep g) ty sc =
        bucketOf g ty sc ++
          ((cs.filter (fun c => decide (tyScopeOf c.subject = (ty, sc)))).map entryOf) := by
  induction cs with
  | nil => intro g; simp
  | cons c t ih =>
    intro g
    rw [List.foldl_cons, ih, groupStep_eq, bucketOf_appendEntry]
    by_cases h : tyScopeOf c.subject = (ty, sc)
    · have h1 : (tyScopeOf c.subject).1 = ty := by rw [h]
      have h2 : (tyScopeOf c.subject).2 = sc := by rw [h]
      simp [List.filter_cons, h, h1, h2]
    · have hne : ¬(ty = (tyScopeOf c.subject).1 ∧ sc = (tyScopeOf c.subject).2) := by
        rintro ⟨h1, h2⟩
        exact h (Prod.ext_iff.mpr ⟨h1.symm, h2.symm⟩)
      simp [List.filter_cons, h, hne]

end GroupingLemmas

/-- Claim C4: the iteration order of the entries inside any
`(type, scope)` bucket of `group_commits` equals the input order of
the originating commits: the bucket is exactly the in-order image of
the input commits that classify to that bucket, so if record `A`
precedes record `B` in the input and both map to the same bucket,
the entry of `A` precedes the entry of `B` in it. -/
theorem c4_bucket_order_is_input_order (cs : List Commit) (ty sc : List Char) :
    bucketOf (groupCommits cs) ty sc =
      (cs.filter (fun c => decide (tyScopeOf c.subject = (ty, sc)))).map entryOf := by
  unfold groupCommits
  rw [bucketOf_foldl]
  simp [bucketOf, findAssoc]

/-- Claim C6: the grouper is a deterministic pure function of the input
sequence: equal input sequences give structurally identical groupings
(in this embedding `group_commits` is a pure function, so the claim is
congruence). -/
theorem c6_grouper_deterministic (cs cs2 : List Commit) (h : cs = cs2) :
    groupCommits cs = groupCommits cs2 := by rw [h]

/-- Witness for C6 at a concrete input. -/
theorem c6_witness :
    groupCommits [{ subject := ['a', ':', ' ', 'x'], body := [] }] =
      groupCommits [{ subject := ['a', ':', ' ', 'x'], body := [] }] :=
  c6_grouper_deterministic _ _ rfl

section TotalityLemmas

theorem innerCount_update (m : List (List Char × List Entry)) (sc : List Char) (e : Entry) :
    innerCount (updateAssoc m sc (fun es => es ++ [e]) []) = innerCount m + 1 := by
  induction m with
  | nil => simp [updateAssoc, innerCount]
  | cons hd t ih =>
    obtain ⟨a, es⟩ := hd
    by_cases h : a = sc
    · simp [updateAssoc, innerCount, h]
      omega
    · simp only [updateAssoc, innerCount, if_neg h, List.map_cons, List.sum_cons]
      have := ih
      simp only [innerCount] at this
      omega

theorem totalEntries_appendEntry (g : Grouping) (t s : List Char) (e : Entry) :
    totalEntries (appendEntry g t s e) = totalEntries g + 1 := by
  unfold appendEntry
  induction g with
  | nil =>
    simp [updateAssoc, totalEntries]
  | cons hd tl ih =>
    obtain ⟨a, m⟩ := hd
    by_cases h : a = t
    · simp only [updateAssoc, if_pos h, totalEntries, List.map_cons, List.sum_cons]
      have := innerCount_update m s e
      simp only [innerCount] at this
      omega
    · simp only [updateAssoc, if_neg h, totalEntries, List.map_cons, List.sum_cons] at ih ⊢
      omega

theorem totalEntries_foldl (cs : List Commit) :
    ∀ g : Grouping, totalEntries (cs.foldl groupStep g) = totalEntries g + cs.length := by
  induction cs with
  | nil => intro g; simp
  | cons c t ih =>
    intro g
    rw [List.foldl_cons, ih, groupStep_eq, totalEntries_appendEntry]
    simp [Nat.add_assoc, Nat.add_comm 1 t.length]

theorem segCount_segStep (st : List Commit × Option Commit) (l : List Char) :
    segCount (segStep st l) ≤ segCount st + 1 := by
  unfold segStep segCount
  by_cases h1 : (pyStrip l).isEmpty || isWipLine (pyStrip l)
  · simp [h1]
  · simp only [h1]
    by_cases h2 : isMarkerLine (pyStrip l)
    · simp [h2]
    · simp only [h2]
      by_cases h3 : ((pyStrip l).head? == some '-') && st.2.isSome
      · simp only [h3]
        cases h : st.2 <;> simp [h]
      · simp only [h3]
        cases h : st.2 <;> simp [h]

theorem segCount_foldl (ls : List (List Char)) :
    ∀ st, segCount (ls.foldl segStep st) ≤ segCount st + ls.length := by
  induction ls with
  | nil => intro st; simp
  | cons l t ih =>
    intro st
    rw [List.foldl_cons]
    calc segCount (t.foldl segStep (segStep st l)) ≤ segCount (segStep st l) + t.length := ih _
    _ ≤ segCount st + 1 + t.length := by
        have := segCount_segStep st l
        omega
    _ = segCount st + (l :: t).length := by simp; omega

end TotalityLemmas

/-- Claim C8: the core raises no errors: the segmenter is total and its
output has at most one record per input line (malformed input degrades
to fewer or coarser records), and the grouper classifies every input
record — the bucket entry counts sum to exactly the input length. -/
theorem c8_core_total (cs : List Commit) (body : List Char) :
    totalEntries (groupCommits cs) = cs.length ∧
      (segmentBody body).length ≤ (pySplitlines body).length := by
  constructor
  · unfold groupCommits
    rw [totalEntries_foldl]
    simp [totalEntries]
  · unfold segmentBody segmentLines
    have := segCount_foldl (pySplitlines body) ([], none)
    simp only [segCount] at this
    simp only [List.length_append]
    simpa using this

section SegmenterLemmas

theorem segStep_wip (st : List Commit × Option Commit) (l : List Char)
    (h : isWipLine (pyStrip l) = true) : segStep st l = st := by
  unfold segStep
  simp [h]

theorem segStep_skip (st : List Commit × Option Commit) (l : List Char)
    (h : (pyStrip l).isEmpty = true) : segStep st l = st := by
  unfold segStep
  simp [h]

theorem subjects_segStep (st : List Commit × Option Commit) (l : List Char) :
    (segStep st l).1.map Commit.subject ++ (segStep st l).2.toList.map Commit.subject =
      (st.1.map Commit.subject ++ st.2.toList.map Commit.subject) ++
        (if keepMarker (pyStrip l) then [stripLeadingStars (pyStrip l)] else []) := by
  unfold segStep keepMarker
  by_cases h1 : (pyStrip l).isEmpty || isWipLine (pyStrip l)
  · simp [h1]
  · simp only [h1]
    by_cases h2 : isMarkerLine (pyStrip l)
    · simp [h2]
    · simp only [h2]
      by_cases h3 : ((pyStrip l).head? == some '-') && st.2.isSome
      · simp only [h3]
        cases h : st.2 <;> simp [h]
      · simp only [h3]
        cases h : st.2 <;> simp [h]

theorem subjects_foldl (ls : List (List Char)) :
    ∀ st : List Commit × Option Commit,
      ((ls.foldl segStep st).1.map Commit.subject ++
          (ls.foldl segStep st).2.toList.map Commit.subject) =
        (st.1.map Commit.subject ++ st.2.toList.map Commit.subject) ++
          ((ls.filter (fun l => keepMarker (pyStrip l))).map
            (fun l => stripLeadingStars (pyStrip l))) := by
  induction ls with
  | nil => intro st; simp
  | cons l t ih =>
    intro st
    rw [List.foldl_cons, ih, subjects_segStep]
    by_cases h : keepMarker (pyStrip l)
    · simp [List.filter_cons, h]
    · simp [List.filter_cons, h]

/-- The subjects the segmenter emits are exactly the stripped marker
lines of the body, with their leading asterisks removed, in order. -/
theorem segmentBody_subjects (body : List Char) :
    (segmentBody body).map Commit.subject = (markerLines body).map stripLeadingStars := by
  unfold segmentBody segmentLines markerLines
  rw [List.map_append, subjects_foldl]
  rw [List.filter_map]
  simp only [List.nil_append, Option.toList_none, List.map_nil]
  rw [List.map_map]
  rfl

end SegmenterLemmas

theorem foldl_segStep_filter_wip (ls : List (List Char)) :
    ∀ st, ls.foldl segStep st =
      (ls.filter (fun l => !isWipLine (pyStrip l))).foldl segStep st := by
  induction ls with
  | nil => intro st; rfl
  | cons l t ih =>
    intro st
    by_cases h : isWipLine (pyStrip l)
    · rw [List.foldl_cons, segStep_wip st l h, List.filter_cons]
      simp only [h, Bool.not_true, Bool.false_eq_true, if_false]
      exact ih st
    · rw [List.foldl_cons, List.filter_cons]
      simp only [h, Bool.not_false, if_true, List.foldl_cons]
      exact ih (segStep st l)

/-- Claim C3: a line whose content case-insensitively starts with
`wip:` never appears in segmenter or grouper output.  First conjunct:
the segmenter result is unchanged when every `wip:` line is deleted
from the input, so such a line starts no record, is appended to no
body, and yields no subject (hence no grouped title).  Second
conjunct: the PR-flow parser never emits a record whose subject is a
`wip:` line, so none reaches the grouper in that flow either. -/
theorem c3_wip_lines_never_in_output (body raw : List Char) :
    (segmentBody body =
      (segmentLines ((pySplitlines body).filter (fun l => !isWipLine (pyStrip l)))).1 ++
        (segmentLines ((pySplitlines body).filter (fun l => !isWipLine (pyStrip l)))).2.toList) ∧
      ∀ c ∈ parseCommitsPr raw, isWipLine c.subject = false := by
  constructor
  · unfold segmentBody segmentLines
    rw [← foldl_segStep_filter_wip]
  · intro c hc
    rw [parseCommitsPr, List.mem_filterMap] at hc
    obtain ⟨chunk, _, hp⟩ := hc
    unfold parseChunk at hp
    by_cases h1 : (pyStrip chunk).isEmpty
    · simp [h1] at hp
    · simp only [h1, Bool.false_eq_true, if_false] at hp
      split at hp
      · split at hp
        · exact absurd hp (by simp)
        · rename_i h2
          rw [Option.some.injEq] at hp
          rw [← hp]
          simpa using h2
      · exact absurd hp (by simp)

/-- Witness for C3 at a concrete PR-flow input. -/
theorem c3_witness :
    isWipLine
      (Commit.subject
        { subject := ['f', ':', ' ', 'x'], body := ['b'],
          sha := some ['h'], shaFull := some ['H'] }) = false :=
  (c3_wip_lines_never_in_output []
      ['h', '|', 'H', '|', 'f', ':', ' ', 'x', '|', 'b']).2 _ (by decide)

/-- Claim C10: a discarded `wip:` line does not finalize the current
in-progress record (first conjunct: the scan state is unchanged), and
a subsequent detail line is appended to the body of the record that
was open before the `wip:` line (second conjunct). -/
theorem c10_wip_keeps_current_record_open (cs : List Commit) (cur : Commit)
    (lw ld : List Char) (hw : isWipLine (pyStrip lw) = true)
    (hd : (pyStrip ld).head? = some '-') :
    segStep (cs, some cur) lw = (cs, some cur) ∧
      segStep (segStep (cs, some cur) lw) ld =
        (cs, some { cur with body := appendBody cur.body (dropDashWs (pyStrip ld)) }) := by
  have h1 : segStep (cs, some cur) lw = (cs, some cur) := segStep_wip _ _ hw
  refine ⟨h1, ?_⟩
  rw [h1]
  obtain ⟨t, hpl⟩ : ∃ t, pyStrip ld = '-' :: t := by
    cases hl : pyStrip ld with
    | nil => rw [hl] at hd; simp at hd
    | cons a t =>
      rw [hl] at hd
      simp only [List.head?_cons, Option.some.injEq] at hd
      exact ⟨t, by rw [hd]⟩
  have hwip : isWipLine (pyStrip ld) = false := by
    rw [hpl]
    have : pyLower '-' = '-' := by decide
    simp [isWipLine, wipChars, List.isPrefixOf, this]
  have hmark : isMarkerLine (pyStrip ld) = false := by
    rw [hpl]
    have hw2 : isWordChar '-' = false := by decide
    simp [isMarkerLine, markerMatch, List.takeWhile_cons, hw2]
  rw [hpl] at hwip hmark
  unfold segStep
  simp [hpl, hwip, hmark]

/-- Witness for C10 at a concrete state and concrete lines. -/
theorem c10_witness :
    segStep ([], some { subject := ['a'], body := [] })
        ['w', 'i', 'p', ':', ' ', 'x'] = ([], some { subject := ['a'], body := [] }) ∧
      segStep
          (segStep ([], some { subject := ['a'], body := [] })
            ['w', 'i', 'p', ':', ' ', 'x'])
          ['-', ' ', 'd'] =
        ([],
          some
            { subject := ['a'],
              body := appendBody [] (dropDashWs (pyStrip ['-', ' ', 'd'])) }) :=
  c10_wip_keeps_current_record_open [] { subject := ['a'], body := [] }
    ['w', 'i', 'p', ':', ' ', 'x'] ['-', ' ', 'd'] (by decide) (by decide)

/-- Counterexample to C2 as stated: the trimmed, non-blank, non-wip
line `feat:` neither begins with `*` nor matches the claimed grammar
(there is no colon-space nor description), yet the segmenter starts a
new record for it, because the code pattern
`^\w+(\([^)]*\))?:` requires nothing after the colon. -/
theorem c2_counterexample :
    specC2Header ['f', 'e', 'a', 't', ':'] = false ∧
      (['f', 'e', 'a', 't', ':'].head? == some '*') = false ∧
      pyStrip ['f', 'e', 'a', 't', ':'] = ['f', 'e', 'a', 't', ':'] ∧
      isWipLine ['f', 'e', 'a', 't', ':'] = false ∧
      segStep ([], none) ['f', 'e', 'a', 't', ':'] =
        ([], some { subject := ['f', 'e', 'a', 't', ':'], body := [] }) := by
  refine ⟨by decide, by decide, by decide, by decide, by decide⟩

/-- Claim C2 as amended: a trimmed non-blank, non-wip line starts a
new record exactly when it begins with `*` or matches the code marker
pattern `^\w+(\([^)]*\))?:` — type of one or more word characters, an
optional parenthesised scope of zero or more non-`)` characters, then
a colon; no space or description after the colon is required. -/
theorem c2_marker_line_characterisation (st : List Commit × Option Commit)
    (l : List Char) (h1 : (pyStrip l).isEmpty = false)
    (h2 : isWipLine (pyStrip l) = false) :
    (segStep st l =
        (st.1 ++ st.2.toList,
          some { subject := stripLeadingStars (pyStrip l), body := [] })) ↔
      isMarkerLine (pyStrip l) = true := by
  constructor
  · intro heq
    by_contra hm
    rw [Bool.not_eq_true] at hm
    unfold segStep at heq
    simp only [h1, h2, Bool.or_self, Bool.false_eq_true, if_false, hm] at heq
    by_cases h3 : ((pyStrip l).head? == some '-') && st.2.isSome
    · simp only [h3, if_true] at heq
      cases hs : st.2 with
      | none => rw [hs] at heq; rw [Prod.ext_iff] at heq; simp [hs] at heq
      | some cur =>
        rw [hs] at heq
        rw [Prod.ext_iff] at heq
        simp [hs] at heq
    · simp only [h3, Bool.false_eq_true, if_false] at heq
      cases hs : st.2 with
      | none =>
        rw [hs] at heq
        rw [Prod.ext_iff] at heq
        simp [hs] at heq
      | some cur =>
        rw [hs] at heq
        rw [Prod.ext_iff] at heq
        simp [hs] at heq
  · intro hm
    unfold segStep
    simp [h1, h2, hm]

/-- Witness for C2 (amended) at a concrete state and line. -/
theorem c2_witness :
    segStep ([], none) ['f', 'e', 'a', 't', '(', 'a', ')', ':', ' ', 'x'] =
        (([] : List Commit) ++ (none : Option Commit).toList,
          some
            { subject :=
                stripLeadingStars (pyStrip ['f', 'e', 'a', 't', '(', 'a', ')', ':', ' ', 'x']),
              body := [] }) ↔
      isMarkerLine (pyStrip ['f', 'e', 'a', 't', '(', 'a', ')', ':', ' ', 'x']) = true :=
  c2_marker_line_characterisation ([], none)
    ['f', 'e', 'a', 't', '(', 'a', ')', ':', ' ', 'x'] (by decide) (by decide)

section LineBreakLemmas

theorem splitlinesAux_no_break (s : List Char) :
    ∀ acc, (∀ ch ∈ acc, ch ≠ '\n' ∧ ch ≠ '\r') →
      ∀ piece ∈ splitlinesAux s acc, ∀ ch ∈ piece, ch ≠ '\n' ∧ ch ≠ '\r' := by
  induction s with
  | nil =>
    intro acc hacc piece hp
    unfold splitlinesAux at hp
    by_cases h : acc.isEmpty
    · simp [h] at hp
    · simp only [h, Bool.false_eq_true, if_false, List.mem_singleton] at hp
      subst hp
      intro ch hch
      exact hacc ch (List.mem_reverse.mp hch)
  | cons c rest ih =>
    intro acc hacc piece hp
    unfold splitlinesAux at hp
    by_cases h : c == '\n' || c == '\r'
    · simp only [h, if_true] at hp
      rcases List.mem_cons.mp hp with hp | hp
      · subst hp
        intro ch hch
        exact hacc ch (List.mem_reverse.mp hch)
      · exact ih [] (by simp) piece hp
    · simp only [h, Bool.false_eq_true, if_false] at hp
      have hc : c ≠ '\n' ∧ c ≠ '\r' := by
        constructor <;> intro hcc <;> subst hcc <;> simp at h
      refine ih (c :: acc) ?_ piece hp
      intro ch hch
      rcases List.mem_cons.mp hch with rfl | hch
      · exact hc
      · exact hacc ch hch

theorem pySplitlines_no_break (l : List Char) :
    ∀ piece ∈ pySplitlines l, ∀ ch ∈ piece, ch ≠ '\n' ∧ ch ≠ '\r' :=
  splitlinesAux_no_break (normNL l) [] (by simp)

theorem mem_of_mem_stripLeadingStars {ch : Char} {l : List Char}
    (h : ch ∈ stripLeadingStars l) : ch ∈ l := by
  unfold stripLeadingStars at h
  by_cases hh : l.head? == some '*'
  · simp only [hh, if_true] at h
    exact (List.dropWhile_sublist _).subset
      ((List.dropWhile_sublist isPySpace).subset h)
  · simpa [hh] using h

theorem mem_of_mem_pyStrip {ch : Char} {l : List Char} (h : ch ∈ pyStrip l) : ch ∈ l := by
  unfold pyStrip at h
  rw [List.mem_reverse] at h
  have h2 := (List.dropWhile_sublist isPySpace).subset h
  rw [List.mem_reverse] at h2
  exact (List.dropWhile_sublist isPySpace).subset h2

end LineBreakLemmas

/-- Counterexample to C5 as stated: for the input body `*`, the
segmenter produces a record whose subject is the empty string, which
is not non-empty after trimming (the line of a single asterisk has
everything stripped away). -/
theorem c5_counterexample :
    segmentBody ['*'] = [{ subject := [], body := [] }] ∧
      pyStrip (Commit.subject { subject := [], body := [] }) = [] := by
  exact ⟨by decide, by decide⟩

/-- Claim C5 as amended: every record the segmenter produces has a
subject without any line break; the non-emptiness half of the claimed
invariant fails (see the counterexample with body `*`). -/
theorem c5_subject_no_line_break (body : List Char) :
    ∀ c ∈ segmentBody body, '\n' ∉ c.subject ∧ '\r' ∉ c.subject := by
  intro c hc
  have hsub : c.subject ∈ (segmentBody body).map Commit.subject :=
    List.mem_map_of_mem _ hc
  rw [segmentBody_subjects, List.mem_map] at hsub
  obtain ⟨m, hm, hms⟩ := hsub
  unfold markerLines at hm
  have hm2 := List.mem_of_mem_filter hm
  rw [List.mem_map] at hm2
  obtain ⟨piece, hpiece, hmp⟩ := hm2
  have hnb := pySplitlines_no_break body piece hpiece
  refine ⟨fun hmem => ?_, fun hmem => ?_⟩
  · have hin : '\n' ∈ piece := by
      rw [← hms] at hmem
      subst hmp
      exact mem_of_mem_pyStrip (mem_of_mem_stripLeadingStars hmem)
    exact (hnb _ hin).1 rfl
  · have hin : '\r' ∈ piece := by
      rw [← hms] at hmem
      subst hmp
      exact mem_of_mem_pyStrip (mem_of_mem_stripLeadingStars hmem)
    exact (hnb _ hin).2 rfl

/-- Witness for C5 (amended) at a concrete body and record. -/
theorem c5_witness :
    '\n' ∉ (Commit.subject { subject := ['a', ':', ' ', 'b'], body := [] }) ∧
      '\r' ∉ (Commit.subject { subject := ['a', ':', ' ', 'b'], body := [] }) :=
  c5_subject_no_line_break ['a', ':', ' ', 'b'] { subject := ['a', ':', ' ', 'b'], body := [] }
    (by decide)

section ShapeLemmas

theorem innerShape_update (m : List (List Char × List Entry)) (sc : List Char) (e : Entry) :
    (updateAssoc m sc (fun es => es ++ [e]) []).map (fun se => (se.1, se.2.length)) =
      updateAssoc (m.map (fun se => (se.1, se.2.length))) sc (fun n => n + 1) 0 := by
  induction m with
  | nil => simp [updateAssoc]
  | cons hd t ih =>
    obtain ⟨a, es⟩ := hd
    by_cases h : a = sc
    · simp [updateAssoc, h]
    · simp [updateAssoc, h, ih]

theorem shapeOf_appendEntry (g : Grouping) (t s : List Char) (e : Entry) :
    shapeOf (appendEntry g t s e) = bumpShape (shapeOf g) t s := by
  unfold appendEntry bumpShape shapeOf
  induction g with
  | nil => simp [updateAssoc, innerShape_update]
  | cons hd tl ih =>
    obtain ⟨a, m⟩ := hd
    by_cases h : a = t
    · simp [updateAssoc, h, innerShape_update]
    · simp [updateAssoc, h]
      simpa [shapeOf] using ih

theorem shapeOf_groupStep (g : Grouping) (c : Commit) :
    shapeOf (groupStep g c) =
      bumpShape (shapeOf g) (tyScopeOf c.subject).1 (tyScopeOf c.subject).2 := by
  rw [groupStep_eq, shapeOf_appendEntry]

theorem shapeOf_foldl (cs : List Commit) :
    ∀ g, shapeOf (cs.foldl groupStep g) =
      (cs.map (fun c => tyScopeOf c.subject)).foldl shapePairsStep (shapeOf g) := by
  induction cs with
  | nil => intro g; rfl
  | cons c t ih =>
    intro g
    rw [List.foldl_cons, ih, List.map_cons, List.foldl_cons, shapeOf_groupStep]
    rfl

end ShapeLemmas

/-- Claim C7: a squash body whose marker lines are exactly one
`feat(x)` header and one plain `fix` header (in either order, with any
other lines being non-markers) round-trips through segmenter and
grouper to a grouping with exactly the buckets `("feat", "x")` and
`("fix", "(no scope)")`, one entry each. -/
theorem c7_roundtrip_two_buckets (body A B : List Char)
    (hm : markerLines body = [A, B])
    (hAB : (tyScopeOf (stripLeadingStars A) = (featChars, ['x']) ∧
              tyScopeOf (stripLeadingStars B) = (fixChars, noScope)) ∨
           (tyScopeOf (stripLeadingStars A) = (fixChars, noScope) ∧
              tyScopeOf (stripLeadingStars B) = (featChars, ['x']))) :
    shapeOf (groupCommits (segmentBody body)) =
      [((tyScopeOf (stripLeadingStars A)).1, [((tyScopeOf (stripLeadingStars A)).2, 1)]),
        ((tyScopeOf (stripLeadingStars B)).1, [((tyScopeOf (stripLeadingStars B)).2, 1)])] := by
  have hsubj : (segmentBody body).map Commit.subject =
      [stripLeadingStars A, stripLeadingStars B] := by
    rw [segmentBody_subjects, hm]
    rfl
  have hpairs : (segmentBody body).map (fun c => tyScopeOf c.subject) =
      [tyScopeOf (stripLeadingStars A), tyScopeOf (stripLeadingStars B)] := by
    have hmm2 : (segmentBody body).map (fun c => tyScopeOf c.subject) =
        ((segmentBody body).map Commit.subject).map tyScopeOf := by
      rw [List.map_map]
      rfl
    rw [hmm2, hsubj]
    rfl
  unfold groupCommits
  rw [shapeOf_foldl, hpairs]
  rcases hAB with ⟨h1, h2⟩ | ⟨h1, h2⟩ <;> rw [h1, h2] <;> decide

/-- Witness for C7 at the concrete body `feat(x): add\nfix: y`. -/
theorem c7_witness :
    shapeOf
        (groupCommits
          (segmentBody
            ['f', 'e', 'a', 't', '(', 'x', ')', ':', ' ', 'a', 'd', 'd', '\n',
              'f', 'i', 'x', ':', ' ', 'y'])) =
      [((tyScopeOf (stripLeadingStars
            ['f', 'e', 'a', 't', '(', 'x', ')', ':', ' ', 'a', 'd', 'd'])).1,
          [((tyScopeOf (stripLeadingStars
              ['f', 'e', 'a', 't', '(', 'x', ')', ':', ' ', 'a', 'd', 'd'])).2, 1)]),
        ((tyScopeOf (stripLeadingStars ['f', 'i', 'x', ':', ' ', 'y'])).1,
          [((tyScopeOf (stripLeadingStars ['f', 'i', 'x', ':', ' ', 'y'])).2, 1)])] :=
  c7_roundtrip_two_buckets
    ['f', 'e', 'a', 't', '(', 'x', ')', ':', ' ', 'a', 'd', 'd', '\n',
      'f', 'i', 'x', ':', ' ', 'y']
    ['f', 'e', 'a', 't', '(', 'x', ')', ':', ' ', 'a', 'd', 'd']
    ['f', 'i', 'x', ':', ' ', 'y'] (by decide) (Or.inl ⟨by decide, by decide⟩)

/-- Claim C9: a subject of the form `type()` followed by a colon (an
empty parenthesised scope) does not match the grouper pattern, whose
scope group `[^)]+` needs at least one character, so the record falls
back to the `other` / `(no scope)` bucket with the whole trimmed
subject as title — while the segmenter marker pattern, whose scope
part `[^)]*` allows zero characters, accepts the very same line as a
new-record marker. -/
theorem c9_empty_scope_falls_back_to_other (ty rest : List Char) (h1 : ty ≠ [])
    (h2 : ∀ c ∈ ty, isWordChar c = true) :
    classify (ty ++ '(' :: ')' :: ':' :: rest) =
        (otherType, noScope, pyStrip (ty ++ '(' :: ')' :: ':' :: rest)) ∧
      isMarkerLine (ty ++ '(' :: ')' :: ':' :: rest) = true := by
  have htw : (ty ++ '(' :: ')' :: ':' :: rest).takeWhile isWordChar = ty := by
    rw [List.takeWhile_append_of_pos h2, List.takeWhile_cons]
    simp [isWordChar]
  have hdw : (ty ++ '(' :: ')' :: ':' :: rest).dropWhile isWordChar =
      '(' :: ')' :: ':' :: rest := by
    rw [List.dropWhile_append_of_pos h2, List.dropWhile_cons]
    simp [isWordChar]
  have hne : ty.isEmpty = false := by
    cases ty with
    | nil => exact absurd rfl h1
    | cons a tl => rfl
  constructor
  · simp only [classify, groupMatch, htw, hdw, hne, Bool.false_eq_true, if_false]
    simp [List.takeWhile_cons]
  · obtain ⟨a, tl, rfl⟩ : ∃ a tl, ty = a :: tl := by
      cases ty with
      | nil => exact absurd rfl h1
      | cons a tl => exact ⟨a, tl, rfl⟩
    have ha : a ≠ '*' := by
      intro hh
      subst hh
      have := h2 '*' (by simp)
      simp [isWordChar] at this
    simp only [isMarkerLine, markerMatch, htw, hdw, hne, Bool.false_eq_true, if_false]
    simp [List.dropWhile_cons, ha]

/-- Witness for C9 at the concrete subject `feat(): add X`. -/
theorem c9_witness :
    classify (['f', 'e', 'a', 't'] ++ '(' :: ')' :: ':' :: [' ', 'a', 'd', 'd']) =
        (otherType, noScope,
          pyStrip (['f', 'e', 'a', 't'] ++ '(' :: ')' :: ':' :: [' ', 'a', 'd', 'd'])) ∧
      isMarkerLine (['f', 'e', 'a', 't'] ++ '(' :: ')' :: ':' :: [' ', 'a', 'd', 'd']) = true :=
  c9_empty_scope_falls_back_to_other ['f', 'e', 'a', 't'] [' ', 'a', 'd', 'd']
    (by decide) (by decide)

/-- Counterexample to C1 as stated: on the subject `feat: ` (one space
after the colon, nothing else) the description captured by the code
pattern is the single space, which is empty after trimming; by the
claimed grammar the subject must not match and must be classified
`other` / `(no scope)` with title `feat:`, but `group_commits` puts it
into the `feat` / `(no scope)` bucket with an empty title. -/
theorem c1_counterexample :
    classify ['f', 'e', 'a', 't', ':', ' '] = (featChars, noScope, []) ∧
      specClassifyC1 ['f', 'e', 'a', 't', ':', ' '] =
        (otherType, noScope, ['f', 'e', 'a', 't', ':']) ∧
      classify ['f', 'e', 'a', 't', ':', ' '] ≠ specClassifyC1 ['f', 'e', 'a', 't', ':', ' '] := by
  refine ⟨by decide, by decide, by decide⟩

theorem descMatch_no_nl (r : List Char) (h : '\n' ∉ r) :
    descMatch r = if r.isEmpty then none else some (descOf r) := by
  have hlast : (r.getLast? == some '\n') = false := by
    rw [beq_eq_false_iff_ne]
    intro hl
    exact h (List.mem_of_mem_getLast? hl)
  have htw : r.reverse.takeWhile (fun c => c != '\n') = r.reverse := by
    rw [List.takeWhile_eq_self_iff]
    intro x hx
    rw [List.mem_reverse] at hx
    simp only [bne_iff_ne, ne_eq]
    intro hxx
    exact h (hxx ▸ hx)
  unfold descMatch
  simp only [hlast, Bool.false_eq_true, if_false, htw, List.reverse_reverse,
    Nat.sub_self, List.take_zero, List.all_nil, if_true]

theorem pyStrip_all_space (l : List Char) (h : ∀ x ∈ l, isPySpace x = true) :
    pyStrip l = [] := by
  unfold pyStrip
  rw [List.dropWhile_eq_nil_iff.mpr h]
  rfl

theorem pyStrip_descOf (l : List Char) : pyStrip (descOf l) = pyStrip l := by
  unfold descOf
  by_cases h : (l.dropWhile isPySpace).isEmpty
  · simp only [h, if_true]
    have hall : ∀ x ∈ l, isPySpace x = true := by
      rw [← List.dropWhile_eq_nil_iff]
      simpa using h
    rw [pyStrip_all_space l hall, pyStrip_all_space]
    intro x hx
    rw [List.mem_reverse] at hx
    exact hall x (List.mem_reverse.mp (List.mem_of_mem_take hx))
  · simp only [h, Bool.false_eq_true, if_false]
    unfold pyStrip
    rw [List.dropWhile_idempotent]

theorem groupMatch_no_nl (s : List Char) (h : '\n' ∉ s) :
    groupMatch s =
      (specHeaderAmended s).map (fun t => (t.1, t.2.1, descOf t.2.2)) := by
  have hsub : ∀ x ∈ s.dropWhile isWordChar, x ∈ s := fun x hx =>
    (List.dropWhile_sublist isWordChar).subset hx
  unfold groupMatch specHeaderAmended
  by_cases hty : (s.takeWhile isWordChar).isEmpty
  · simp [hty]
  · simp only [hty, Bool.false_eq_true, if_false]
    split
    · rename_i r heq
      have hr : '\n' ∉ r := by
        intro hm
        refine h (hsub '\n' ?_)
        rw [heq]
        exact List.mem_cons_of_mem ':' hm
      rw [descMatch_no_nl r hr]
      by_cases hre : r.isEmpty
      · simp [hre]
      · simp [hre]
    · rename_i r heq
      by_cases hsc : (r.takeWhile (fun c => c != ')')).isEmpty
      · simp [hsc]
      · simp only [hsc, Bool.false_eq_true, if_false]
        split
        · rename_i r2 heq2
          have hr2 : '\n' ∉ r2 := by
            intro hm
            have hm2 : '\n' ∈ r.dropWhile (fun c => c != ')') := by
              rw [heq2]
              exact List.mem_cons_of_mem ')' (List.mem_cons_of_mem ':' hm)
            have hm3 : '\n' ∈ r := (List.dropWhile_sublist _).subset hm2
            refine h (hsub '\n' ?_)
            rw [heq]
            exact List.mem_cons_of_mem '(' hm3
          rw [descMatch_no_nl r2 hr2]
          by_cases hre : r2.isEmpty
          · simp [hre]
          · simp [hre]
        · simp
    · simp

theorem classify_eq_specAmended (s : List Char) (h : '\n' ∉ s) :
    classify s = specClassifyAmended s := by
  unfold classify specClassifyAmended
  rw [groupMatch_no_nl s h]
  cases hsp : specHeaderAmended s with
  | none => simp
  | some t =>
    obtain ⟨ty, scOpt, r⟩ := t
    simp [pyStrip_descOf]

/-- Claim C1 as amended: for records whose subjects contain no line
break (the data-model invariant), `group_commits` classifies exactly
as the spec grammar says, with one correction: the description need
only be non-empty as a string, not non-empty after trimming — an
all-whitespace description still matches and yields an empty title. -/
theorem c1_grouper_matches_amended_grammar (cs : List Commit)
    (h : ∀ c ∈ cs, '\n' ∉ c.subject) :
    groupCommits cs = groupCommitsSpecAmended cs := by
  unfold groupCommits groupCommitsSpecAmended
  have main : ∀ (l : List Commit), (∀ c ∈ l, '\n' ∉ c.subject) →
      ∀ g : Grouping, l.foldl groupStep g = l.foldl specGroupStepAmended g := by
    intro l
    induction l with
    | nil => intro _ g; rfl
    | cons c t ih =>
      intro hl g
      rw [List.foldl_cons, List.foldl_cons]
      have hstep : groupStep g c = specGroupStepAmended g c := by
        unfold groupStep specGroupStepAmended
        rw [classify_eq_specAmended c.subject (hl c (List.mem_cons_self c t))]
      rw [hstep]
      exact ih (fun d hd => hl d (List.mem_cons_of_mem c hd)) _
  exact main cs h []

/-- Witness for C1 (amended) at a concrete two-record input. -/
theorem c1_witness :
    groupCommits
        [{ subject := ['f', 'i', 'x', '(', 'c', 'o', 'r', 'e', ')', ':', ' ', 'z'], body := [] },
          { subject := ['u', 'p', 'd', 'a', 't', 'e'], body := [] }] =
      groupCommitsSpecAmended
        [{ subject := ['f', 'i', 'x', '(', 'c', 'o', 'r', 'e', ')', ':', ' ', 'z'], body := [] },
          { subject := ['u', 'p', 'd', 'a', 't', 'e'], body := [] }] :=
  c1_grouper_matches_amended_grammar
    [{ subject := ['f', 'i', 'x', '(', 'c', 'o', 'r', 'e', ')', ':', ' ', 'z'], body := [] },
      { subject := ['u', 'p', 'd', 'a', 't', 'e'], body := [] }] (by decide)
